import Mathlib

/-!
Verification of `demo_scripts/amp_demo.py` (BAG_XBase_demo).

The script drives an external EDA toolchain; the locally implemented logic is
the piecewise-linear (PWL) waveform writer `gen_pwl_data`, the orchestration
and error handling of `gen_schematics`, the result-file naming of
`simulate`/`load_sim_data`, and the numeric post-processing in `plot_data`.
Python floats are modelled as exact rationals (`ℚ`) except for the purely
analytic dB/phase facts, which are stated over `ℝ`/`ℂ`.  File-system effects
are modelled by explicit state passing over an `FS` record; exceptions are
modelled as `Option OSErr` results.
-/

namespace AmpDemo

/-! ### Waveform parameters and vectors (`gen_pwl_data`, lines 32-38)

The four scalars are hard-coded in the Python function body:
`td = 100e-12`, `tpulse = 800e-12`, `tr = 20e-12`, `amp = 10e-3`. -/

def td : ℚ := 100 / 10 ^ 12

def tpulse : ℚ := 800 / 10 ^ 12

def tr : ℚ := 20 / 10 ^ 12

def amp : ℚ := 10 / 10 ^ 3

/-- `tvec = [0, td, td + tr, td + tr + tpulse, td + tr + tpulse + tr]`. -/
def pwl_tvec (td tpulse tr : ℚ) : List ℚ :=
  [0, td, td + tr, td + tr + tpulse, td + tr + tpulse + tr]

/-- `yvec = [-amp, -amp, amp, amp, -amp]`. -/
def pwl_yvec (amp : ℚ) : List ℚ :=
  [-amp, -amp, amp, amp, -amp]

/-- The five (time, amplitude) pairs produced by `gen_pwl_data`
(`zip(tvec, yvec)` in the write loop). -/
def pwl_pairs : List (ℚ × ℚ) :=
  (pwl_tvec td tpulse tr).zip (pwl_yvec amp)

/-! ### `%.4g` formatting over ℚ

Models C `printf` / Python `%`-formatting with conversion `g` and precision 4:
round to 4 significant digits; use scientific style when the decimal exponent
is `< -4` or `≥ 4`, else fixed style; strip trailing zeros (no `#` flag);
exponent printed with sign and at least two digits. -/

/-- Fuel-based floor of `log10` on naturals (`log10floor 0 = 0`). -/
def nlog10 : Nat → Nat → Nat
  | 0, _ => 0
  | fuel + 1, n => if n < 10 then 0 else nlog10 fuel (n / 10) + 1

def log10floor (n : Nat) : Nat := nlog10 n n

/-- Smallest `k ≥ 1` with `a * 10 ^ k ≥ 1`, for `0 < a < 1` (fuel-based). -/
def qlogNegAux : Nat → ℚ → Nat
  | 0, _ => 0
  | fuel + 1, a => if 1 ≤ a * 10 then 1 else 1 + qlogNegAux fuel (a * 10)

/-- Floor of `log10 a` for a positive rational `a`. -/
def qlog10pos (a : ℚ) : ℤ :=
  if 1 ≤ a then (log10floor (Int.toNat ⌊a⌋) : ℤ)
  else -(qlogNegAux (log10floor a.den + 1) a : ℤ)

/-- Round a rational to the nearest integer, ties to even (IEEE-style, as used
by the correctly rounded float-to-decimal conversion behind `%g`). -/
def roundHalfEven (q : ℚ) : ℤ :=
  let f := ⌊q⌋
  let r := q - f
  if r < 1 / 2 then f
  else if 1 / 2 < r then f + 1
  else if f % 2 = 0 then f else f + 1

/-- Drop trailing zero digits. -/
def stripTrailZeros (l : List Nat) : List Nat :=
  (l.reverse.dropWhile (· == 0)).reverse

def digitsStr (l : List Nat) : String :=
  String.mk (l.map Nat.digitChar)

/-- Exponent part of scientific style: sign and at least two digits. -/
def expString (e : ℤ) : String :=
  let sign := if e < 0 then "-" else "+"
  let m := e.natAbs
  sign ++ (if m < 10 then "0" ++ Nat.repr m else Nat.repr m)

/-- `'%.4g' % x` for a rational `x`. -/
def format4g (x : ℚ) : String :=
  if x = 0 then "0"
  else
    let sgn := if x < 0 then "-" else ""
    let a := |x|
    let e0 := qlog10pos a
    let n0 := Int.toNat (roundHalfEven (a / (10 : ℚ) ^ (e0 - 3)))
    let n := if n0 = 10000 then 1000 else n0
    let e := if n0 = 10000 then e0 + 1 else e0
    let ds := [n / 1000, n / 100 % 10, n / 10 % 10, n % 10]
    if e < -4 ∨ 4 ≤ e then
      let rest := stripTrailZeros ds.tail
      sgn ++ digitsStr [ds.headD 0] ++
        (if rest = [] then "" else "." ++ digitsStr rest) ++ "e" ++ expString e
    else if 0 ≤ e then
      let k := Int.toNat e
      let frac := stripTrailZeros (ds.drop (k + 1))
      sgn ++ digitsStr (ds.take (k + 1)) ++
        (if frac = [] then "" else "." ++ digitsStr frac)
    else
      sgn ++ "0." ++ String.mk (List.replicate (e.natAbs - 1) '0') ++
        digitsStr (stripTrailZeros ds)

/-- The text content written by `gen_pwl_data`
(`f.write('%.4g %.4g\n' % (t, y))` over `zip(tvec, yvec)`). -/
def pwlFileContent : String :=
  String.join (pwl_pairs.map fun p => format4g p.1 ++ " " ++ format4g p.2 ++ "\n")

/-! ### Reading the PWL file back

A plain-text reader for the whitespace-separated "time amplitude" lines the
file holds: split into lines, split each line on the separating space, parse
each field as a (possibly signed) decimal with an optional `e`-exponent.  This
is the read-back side of the round-trip property; the file format itself is
fixed by `gen_pwl_data`'s `'%.4g %.4g\n'` template. -/

def splitCharList (sep : Char) (cs : List Char) : List (List Char) :=
  cs.foldr (fun c acc =>
    match acc with
    | [] => if c == sep then [[], []] else [[c]]
    | cur :: rest => if c == sep then [] :: cur :: rest else (c :: cur) :: rest) [[]]

def parseNatDigits (cs : List Char) : Option Nat :=
  if cs = [] then none
  else if cs.all (·.isDigit) then
    some (cs.foldl (fun n c => 10 * n + (c.toNat - 48)) 0)
  else none

def parseSignedInt (cs : List Char) : Option Int :=
  match cs with
  | '-' :: rest => (parseNatDigits rest).map (fun n => -(n : Int))
  | '+' :: rest => (parseNatDigits rest).map Int.ofNat
  | _ => (parseNatDigits cs).map Int.ofNat

/-- `10 ^ n` as a rational (via the natural-number power, kernel-friendly). -/
def pow10 (n : Nat) : ℚ := ((10 ^ n : Nat) : ℚ)

/-- `10 ^ e` for an integer exponent. -/
def zpow10 : Int → ℚ
  | .ofNat n => pow10 n
  | .negSucc n => 1 / pow10 (n + 1)

/-- Parse `digits[.digits]` as an exact rational. -/
def parseMantissa (cs : List Char) : Option ℚ :=
  let ip := cs.takeWhile (fun c => c != '.')
  match cs.dropWhile (fun c => c != '.') with
  | [] => (parseNatDigits ip).map (fun n => (n : ℚ))
  | _ :: fp => do
    let i ← parseNatDigits ip
    let f ← parseNatDigits fp
    pure ((i : ℚ) + (f : ℚ) / pow10 fp.length)

/-- Parse `[-]digits[.digits][e[±]digits]` as an exact rational. -/
def parseRat (s : String) : Option ℚ :=
  let cs := s.data
  let (sgn, cs) : ℚ × List Char :=
    match cs with
    | '-' :: rest => (-1, rest)
    | '+' :: rest => (1, rest)
    | _ => (1, cs)
  let mant := cs.takeWhile (fun c => c != 'e' && c != 'E')
  match cs.dropWhile (fun c => c != 'e' && c != 'E') with
  | [] => (parseMantissa mant).map (sgn * ·)
  | _ :: ecs => do
    let m ← parseMantissa mant
    let e ← parseSignedInt ecs
    pure (sgn * m * zpow10 e)

def parsePairLine (line : List Char) : Option (ℚ × ℚ) :=
  match splitCharList ' ' line with
  | [a, b] => do
    let x ← parseRat (String.mk a)
    let y ← parseRat (String.mk b)
    pure (x, y)
  | _ => none

/-- Read back a whole PWL file: one (time, amplitude) pair per non-empty line. -/
def parsePwl (content : String) : Option (List (ℚ × ℚ)) :=
  ((splitCharList '\n' content.data).filter (· ≠ [])).mapM parsePairLine

/-! ### File-system model for `gen_pwl_data` (lines 40-45)

`gen_pwl_data` performs `os.path.dirname`, `os.makedirs(..., exist_ok=True)`
and `open(fname, 'w')`.  The file system is a record of existing directory
paths and file contents; POSIX errors are an explicit enumeration.  `psplit`
and `dirname` transcribe CPython's `posixpath.split`/`posixpath.dirname`
(index of last `'/'` plus one, head stripped of trailing slashes unless it is
all slashes); `makedirs` transcribes CPython's `os.makedirs` specialized to
`exist_ok=True` (recursive head creation guarded by existence, the
`FileExistsError` swallow around the recursive call, the `tail == curdir`
early return, and the final `mkdir` whose `OSError` is suppressed only when
the path is now a directory).  `mkdir` errors on the empty name
(`FileNotFoundError`, errno 2) and on an existing entry (`FileExistsError`);
parent directories are guaranteed by `makedirs`'s recursion. -/

inductive OSErr where
  | fileNotFound
  | fileExists
  | isADirectory
  deriving DecidableEq, Repr

structure FS where
  dirs : List String
  files : List (String × String)
  deriving DecidableEq, Repr

/-- Trailing-slash stripping (`head.rstrip('/')`). -/
def dropTrailSlashes (cs : List Char) : List Char :=
  (cs.reverse.dropWhile (· == '/')).reverse

/-- `posixpath.split`: `i = p.rfind('/') + 1`; head is `p[:i]` with trailing
slashes stripped unless it consists only of slashes; tail is `p[i:]`. -/
def psplit (p : String) : String × String :=
  let cs := p.data
  let tlen := (cs.reverse.takeWhile (fun c => c != '/')).length
  let i := cs.length - tlen
  let head := cs.take i
  let tail := cs.drop i
  let head := if head = [] || head.all (· == '/') then head else dropTrailSlashes head
  (String.mk head, String.mk tail)

/-- `posixpath.dirname`. -/
def dirname (p : String) : String := (psplit p).1

/-- A non-empty string consisting only of `'/'` denotes the root (and its
aliases `"//"`, `"///"`, ...), which always exists as a directory. -/
def isdir (fs : FS) (p : String) : Bool :=
  !(p = "") && (p.data.all (· == '/') || fs.dirs.contains p)

def isfile (fs : FS) (p : String) : Bool :=
  (fs.files.lookup p).isSome

def pexists (fs : FS) (p : String) : Bool :=
  isdir fs p || isfile fs p

/-- `os.mkdir`: `FileNotFoundError` on the empty name, `FileExistsError` on an
existing entry, else record the new directory. -/
def mkdir (fs : FS) (name : String) : FS × Option OSErr :=
  if name = "" then (fs, some .fileNotFound)
  else if isdir fs name || isfile fs name then (fs, some .fileExists)
  else ({ fs with dirs := name :: fs.dirs }, none)

/-- `mkdir` with the `exist_ok=True` suppression: an `OSError` is swallowed
exactly when the path is a directory afterwards. -/
def mkdirSwallow (fs : FS) (name : String) : FS × Option OSErr :=
  match mkdir fs name with
  | (fs', none) => (fs', none)
  | (fs', some e) => if isdir fs' name then (fs', none) else (fs', some e)

/-- The double split at the top of `os.makedirs`:
`head, tail = path.split(name); if not tail: head, tail = path.split(head)`. -/
def dsplit (name : String) : String × String :=
  if (psplit name).2 = "" then psplit (psplit name).1 else psplit name

/-- `os.makedirs(name, exist_ok=True)`, fuel-based (the recursion descends to
the strictly shorter `head`).  Mirrors CPython `os.py`: after the double
split, if `head` and `tail` are non-empty and `head` does not exist, recurse
on `head` swallowing `FileExistsError`, and return early when
`tail == '.'` (`curdir`); finally `mkdir(name)` suppressing `OSError` when
`name` is a directory. -/
def makedirsA (fs : FS) : Nat → String → FS × Option OSErr
  | 0, _ => (fs, some .fileNotFound)
  | fuel + 1, name =>
    if (dsplit name).1 ≠ "" ∧ (dsplit name).2 ≠ "" ∧ ¬ pexists fs (dsplit name).1 then
      if (makedirsA fs fuel (dsplit name).1).2 = none ∨
          (makedirsA fs fuel (dsplit name).1).2 = some .fileExists then
        if (dsplit name).2 = "." then ((makedirsA fs fuel (dsplit name).1).1, none)
        else mkdirSwallow (makedirsA fs fuel (dsplit name).1).1 name
      else makedirsA fs fuel (dsplit name).1
    else mkdirSwallow fs name

def makedirs (fs : FS) (name : String) : FS × Option OSErr :=
  makedirsA fs (name.length + 1) name

/-- Update (or create) the binding of `f` in an association list,
keeping its position — Python `dict` assignment / file overwrite. -/
def setFile : List (String × String) → String → String → List (String × String)
  | [], f, c => [(f, c)]
  | (g, d) :: rest, f, c =>
    if g = f then (f, c) :: rest else (g, d) :: setFile rest f c

/-- `open(fname, 'w')` followed by writing `content`: fails on an empty name,
a trailing slash or an existing directory (`EISDIR`), or a missing parent
directory; otherwise truncates/creates the file. -/
def openWrite (fs : FS) (fname content : String) : FS × Option OSErr :=
  if fname = "" then (fs, some .fileNotFound)
  else if fname.data.getLast? = some '/' then (fs, some .isADirectory)
  else if isdir fs fname then (fs, some .isADirectory)
  else if dirname fname ≠ "" ∧ ¬ isdir fs (dirname fname) then (fs, some .fileNotFound)
  else ({ fs with files := setFile fs.files fname content }, none)

/-- `gen_pwl_data(fname)` as a state transformer:
`dir_name = os.path.dirname(fname)`; `os.makedirs(dir_name, exist_ok=True)`;
write the five formatted lines to `fname`. -/
def gen_pwl_data (fs : FS) (fname : String) : FS × Option OSErr :=
  let dir_name := dirname fname
  match makedirs fs dir_name with
  | (fs1, some e) => (fs1, some e)
  | (fs1, none) => openWrite fs1 fname pwlFileContent

/-- No split tail along `makedirs`'s recursion path is `"."` (a sufficient,
fs-independent condition ruling out the `tail == curdir` early return). -/
def noDotTails : Nat → String → Bool
  | 0, _ => false
  | fuel + 1, name =>
    (dsplit name).2 != "." &&
      (if (dsplit name).1 ≠ "" ∧ (dsplit name).2 ≠ "" then
        noDotTails fuel (dsplit name).1
      else true)

/-! ### POSIX path helpers used by `gen_schematics` and `simulate`

`pjoin` transcribes `posixpath.join` (two arguments), `normpath` transcribes
`posixpath.normpath`, `abspath` transcribes `posixpath.abspath` with the
working directory passed explicitly. -/

def pjoin (a b : String) : String :=
  if b.data.head? = some '/' then b
  else if a = "" ∨ a.data.getLast? = some '/' then a ++ b
  else a ++ "/" ++ b

/-- `posixpath.normpath`: collapse `//` and `.` components, resolve `..`,
preserve an initial `//` (POSIX allows it to be implementation-defined). -/
def normpath (path : String) : String :=
  if path = "" then "."
  else
    let initialSlashes : Nat :=
      match path.data with
      | '/' :: '/' :: '/' :: _ => 1
      | '/' :: '/' :: _ => 2
      | '/' :: _ => 1
      | _ => 0
    let comps := (splitCharList '/' path.data).map String.mk
    let newComps := comps.foldl (fun acc comp =>
      if comp = "" ∨ comp = "." then acc
      else if comp ≠ ".." ∨ (initialSlashes = 0 ∧ acc = []) ∨ acc.getLast? = some ".." then
        acc ++ [comp]
      else if acc ≠ [] then acc.dropLast
      else acc) ([] : List String)
    let joined := String.mk (List.replicate initialSlashes '/') ++
      String.intercalate "/" newComps
    if joined = "" then "." else joined

/-- `posixpath.abspath(p)` relative to the working directory `cwd`:
`normpath(p)` if `p` is absolute, else `normpath(join(cwd, p))`. -/
def abspath (cwd p : String) : String :=
  normpath (if p.data.head? = some '/' then p else pjoin cwd p)

/-! ### `gen_schematics` (lines 68-110)

The external framework (`prj.create_design_module`, `dsn.design`,
`dsn.implement_design`, `prj.run_lvs`) is opaque; its calls are recorded as
trace events, and the one external datum the control flow depends on — the
`(lvs_passed, lvs_log)` pair returned by `prj.run_lvs` — is passed in as a
parameter.  The spec mapping `specs[dsn_name]` is the `DsnSpecs` record;
Python `dict`s are association lists with unique keys in document order.
The only `raise` statement in the script is modelled by the `Except.error`
branch; operating-system failures while writing the stimulus file are
environment failures, not error conditions raised by the script, and the
write is recorded as a `pwlWritten` event. -/

structure TbInfo where
  tb_lib : String
  tb_cell : String
  sch_params : List (String × String)
  deriving DecidableEq, Repr

structure DsnSpecs where
  impl_lib : String
  sch_lib : String
  sch_cell : String
  gen_cell : String
  testbenches : List (String × TbInfo)
  deriving DecidableEq, Repr

inductive SchEvent where
  | dutCreated (lib cell : String)
  | dutDesigned
  | dutImplemented (lib cell : String)
  | lvsRun (lib cell : String)
  | pwlWritten (fname : String)
  | tbCreated (lib cell : String)
  | tbDesigned (dutLib dutCell : String)
  | tbImplemented (lib cell : String)
  deriving DecidableEq, Repr

/-- `tb_sch_params['tran_fname'] = tran_fname`: in-place update of the first
(unique) binding of the key. -/
def setVal : List (String × String) → String → String → List (String × String)
  | [], _, _ => []
  | (k, w) :: rest, key, v =>
    if k = key then (k, v) :: rest else (k, w) :: setVal rest key v

/-- The body of the testbench loop acting on one `(name, info)` item:
returns the updated `info` (the caller's nested dict after mutation) and the
events emitted for this testbench. -/
def tbStep (cwd : String) (d : DsnSpecs) (name : String) (info : TbInfo) :
    TbInfo × List SchEvent :=
  let tb_gen_cell := d.gen_cell ++ "_" ++ name
  match info.sch_params.lookup "tran_fname" with
  | some v =>
    let tran_fname := abspath cwd v
    ({ info with sch_params := setVal info.sch_params "tran_fname" tran_fname },
      [.pwlWritten tran_fname, .tbCreated info.tb_lib info.tb_cell,
        .tbDesigned d.impl_lib d.gen_cell, .tbImplemented d.impl_lib tb_gen_cell])
  | none =>
    (info,
      [.tbCreated info.tb_lib info.tb_cell,
        .tbDesigned d.impl_lib d.gen_cell, .tbImplemented d.impl_lib tb_gen_cell])

/-- The testbench loop of `gen_schematics`: always succeeds, returning the
mutated spec record and the emitted events. -/
def runTestbenches (cwd : String) (d : DsnSpecs) : DsnSpecs × List SchEvent :=
  let steps := d.testbenches.map fun p => (p.1, tbStep cwd d p.1 p.2)
  ({ d with testbenches := steps.map fun s => (s.1, s.2.1) },
    (steps.map fun s => s.2.2).flatten)

/-- `gen_schematics(prj, specs, dsn_name, sch_params, check_lvs)`:
the emitted event trace together with either the final state of
`specs[dsn_name]` or the message of the raised `ValueError`.
`lvs` is the `(lvs_passed, lvs_log)` pair `prj.run_lvs` would return. -/
def gen_schematics (cwd : String) (lvs : Bool × String) (d : DsnSpecs)
    (check_lvs : Bool) : List SchEvent × Except String DsnSpecs :=
  let ev0 : List SchEvent :=
    [.dutCreated d.sch_lib d.sch_cell, .dutDesigned,
      .dutImplemented d.impl_lib d.gen_cell]
  if check_lvs then
    let ev1 := ev0 ++ [.lvsRun d.impl_lib d.gen_cell]
    if !lvs.1 then
      (ev1, .error ("LVS failed.  check log file: " ++ lvs.2))
    else
      (ev1 ++ (runTestbenches cwd d).2, .ok (runTestbenches cwd d).1)
  else
    (ev0 ++ (runTestbenches cwd d).2, .ok (runTestbenches cwd d).1)

/-- The events belonging to testbench schematic generation: creating or
implementing a testbench design module, or writing a stimulus file. -/
def isTbEvent : SchEvent → Bool
  | .pwlWritten _ => true
  | .tbCreated _ _ => true
  | .tbDesigned _ _ => true
  | .tbImplemented _ _ => true
  | _ => false

/-! ### `simulate` (lines 113-144) and `load_sim_data` (lines 147-162)

Only the result-file naming is locally computed: per testbench `name`,
`simulate` saves to `os.path.join(data_dir, '%s.hdf5' % tb_gen_cell)` with
`tb_gen_cell = '%s_%s' % (gen_cell, name)`, and `load_sim_data` reads from the
same expression.  Each is transcribed from its own loop. -/

/-- The HDF5 files written by `simulate`, in testbench order. -/
def simulate_files (data_dir gen_cell : String)
    (testbenches : List (String × TbInfo)) : List String :=
  testbenches.map fun p => pjoin data_dir ((gen_cell ++ "_" ++ p.1) ++ ".hdf5")

/-- The HDF5 files read by `load_sim_data`, in testbench order. -/
def load_sim_data_files (data_dir gen_cell : String)
    (testbenches : List (String × TbInfo)) : List String :=
  testbenches.map fun p => pjoin data_dir ((gen_cell ++ "_" ++ p.1) ++ ".hdf5")

/-! ### `np.argsort` (used by `plot_data`, line 169)

`plot_data` sorts by input voltage with `np.argsort(vin)` — the default
`kind='quicksort'`, NumPy's indirect introsort (`aquicksort` in
`numpy/core/src/npysort/quicksort.c.src`): median-of-3 quicksort on the index
array with an explicit range stack, switching to indirect insertion sort for
ranges of at most `SMALL_QUICKSORT = 15` elements (i.e. `pr - pl ≤ 15`) and to
indirect heapsort (`aheapsort`) when the depth budget `2·msb(n)` is exhausted.
All comparisons are strict `<` on the values; every structural swap of the
partitioning step is transcribed.  Values are the sampled `vin` entries,
modelled as exact rationals; the index array is a `List Nat`.  Loops are
fuel-based with fuel large enough for the real executions. -/

/-- `v[t[i]]`, the value a position of the index array points at. -/
def idxVal (v : List ℚ) (t : List Nat) (i : Nat) : ℚ :=
  v.getD (t.getD i 0) 0

/-- Swap two positions of the index array (`INTP_SWAP`). -/
def swapIdx (t : List Nat) (i j : Nat) : List Nat :=
  (t.set i (t.getD j 0)).set j (t.getD i 0)

/-- `do ++pi; while (LT(v[*pi], vp))`. -/
def scanUp (v : List ℚ) (t : List Nat) (vp : ℚ) : Nat → Nat → Nat
  | 0, i => i
  | fuel + 1, i => if idxVal v t (i + 1) < vp then scanUp v t vp fuel (i + 1) else i + 1

/-- `do --pj; while (LT(vp, v[*pj]))`. -/
def scanDown (v : List ℚ) (t : List Nat) (vp : ℚ) : Nat → Nat → Nat
  | 0, j => j
  | fuel + 1, j => if vp < idxVal v t (j - 1) then scanDown v t vp fuel (j - 1) else j - 1

/-- The pointer-crossing loop of the partition step. -/
def partLoop (v : List ℚ) (vp : ℚ) : Nat → List Nat → Nat → Nat → List Nat × Nat
  | 0, t, i, _ => (t, i)
  | fuel + 1, t, i, j =>
    let i' := scanUp v t vp t.length i
    let j' := scanDown v t vp t.length j
    if j' ≤ i' then (t, i')
    else partLoop v vp fuel (swapIdx t i' j') i' j'

/-- One quicksort partition of `[pl, pr]` (requires `pr - pl > 15`):
median-of-3 pivot selection with its index swaps, pivot parked at `pr - 1`,
pointer-crossing loop, pivot restored at the crossing point `pi`. -/
def partitionStep (v : List ℚ) (t : List Nat) (pl pr : Nat) : List Nat × Nat :=
  let pm := pl + (pr - pl) / 2
  let t := if idxVal v t pm < idxVal v t pl then swapIdx t pm pl else t
  let t := if idxVal v t pr < idxVal v t pm then swapIdx t pr pm else t
  let t := if idxVal v t pm < idxVal v t pl then swapIdx t pm pl else t
  let vp := idxVal v t pm
  let t := swapIdx t pm (pr - 1)
  let (t, pi) := partLoop v vp (pr + 1) t pl (pr - 1)
  (swapIdx t pi (pr - 1), pi)

/-- Stable insert of index `i` into an already sorted index list, by strict
`<` on values: the functional form of the shifting inner loop of the indirect
insertion sort (`while (pj > pl && LT(vp, v[*pk])) *pj-- = *pk--`). -/
def insIdx (v : List ℚ) (i : Nat) : List Nat → List Nat
  | [] => [i]
  | k :: rest => if v.getD i 0 < v.getD k 0 then i :: k :: rest else k :: insIdx v i rest

/-- The indirect insertion sort over the slice `[pl, pr]` of the index array,
spliced back in place. -/
def insSortRange (v : List ℚ) (t : List Nat) (pl pr : Nat) : List Nat :=
  let len := pr + 1 - pl
  let slice := (t.drop pl).take len
  let sorted := slice.foldl (fun acc i => insIdx v i acc) []
  t.take pl ++ sorted ++ t.drop (pl + len)

/-- Sift step of `aheapsort` on the 1-indexed slice array `a` of length `n`
(`a[k]` is `a.getD (k-1) 0`). -/
def hsift (v : List ℚ) (n : Nat) (tmp : Nat) : Nat → List Nat → Nat → Nat → List Nat
  | 0, a, i, _ => a.set (i - 1) tmp
  | fuel + 1, a, i, j =>
    if j ≤ n then
      let j := if j < n ∧ v.getD (a.getD (j - 1) 0) 0 < v.getD (a.getD j 0) 0 then j + 1 else j
      if v.getD tmp 0 < v.getD (a.getD (j - 1) 0) 0 then
        hsift v n tmp fuel (a.set (i - 1) (a.getD (j - 1) 0)) j (2 * j)
      else a.set (i - 1) tmp
    else a.set (i - 1) tmp

/-- Heapify phase of `aheapsort`: `for (l = n >> 1; l > 0; --l)`. -/
def heapifyLoop (v : List ℚ) (n : Nat) : Nat → List Nat → List Nat
  | 0, a => a
  | l + 1, a => heapifyLoop v n l (hsift v n (a.getD l 0) (n + 1) a (l + 1) (2 * (l + 1)))

/-- Extraction phase of `aheapsort`: `for (; n > 1;)`. -/
def heapExtract (v : List ℚ) : Nat → List Nat → List Nat
  | 0, a => a
  | 1, a => a
  | n + 2, a =>
    let tmp := a.getD (n + 1) 0
    let a := a.set (n + 1) (a.getD 0 0)
    heapExtract v (n + 1) (hsift v (n + 1) tmp (n + 2) a 1 2)

/-- `aheapsort` applied to the slice `[pl, pr]` of the index array. -/
def heapSortRange (v : List ℚ) (t : List Nat) (pl pr : Nat) : List Nat :=
  let len := pr + 1 - pl
  let slice := (t.drop pl).take len
  let a := heapExtract v len (heapifyLoop v len (len / 2) slice)
  t.take pl ++ a ++ t.drop (pl + len)

/-- Fuel-based floor of `log2` (`npy_get_msb`). -/
def nlog2 : Nat → Nat → Nat
  | 0, _ => 0
  | fuel + 1, n => if n < 2 then 0 else nlog2 fuel (n / 2) + 1

/-- The driver loop of `aquicksort`: partition while `pr - pl > 15`
(pushing the larger side on the stack, `depth_limit--` per partition, falling
back to `aheapsort` when the budget is negative), insertion-sort the small
range, then pop the stack. -/
def introLoop (v : List ℚ) : Nat → List Nat → Nat → Nat → Int → List (Nat × Nat) → List Nat
  | 0, t, _, _, _, _ => t
  | fuel + 1, t, pl, pr, depth, stack =>
    if 15 < pr - pl then
      if depth < 0 then
        let t := heapSortRange v t pl pr
        match stack with
        | [] => t
        | (pl', pr') :: rest => introLoop v fuel t pl' pr' (depth - 1) rest
      else
        let (t, pi) := partitionStep v t pl pr
        if pi - pl < pr - pi then
          introLoop v fuel t pl (pi - 1) (depth - 1) ((pi + 1, pr) :: stack)
        else
          introLoop v fuel t (pi + 1) pr (depth - 1) ((pl, pi - 1) :: stack)
    else
      let t := insSortRange v t pl pr
      match stack with
      | [] => t
      | (pl', pr') :: rest => introLoop v fuel t pl' pr' depth rest

/-- `np.argsort(v)` with the default `kind='quicksort'`. -/
def np_argsort (v : List ℚ) : List Nat :=
  let n := v.length
  introLoop v (4 * n + 16) (List.range n) 0 (n - 1) (2 * (nlog2 n n)) []

/-- The permutation returned by an argsort is stable when, among entries with
equal values, the original indices appear in increasing order. -/
def StablePerm (v : List ℚ) (p : List Nat) : Prop :=
  p.Pairwise fun a b => v.getD a 0 = v.getD b 0 → a < b

instance (v : List ℚ) (p : List Nat) : Decidable (StablePerm v p) :=
  inferInstanceAs (Decidable (List.Pairwise _ _))

/-- The reordered value sequence `vin[vin_arg]` is non-decreasing. -/
def SortedVals (v : List ℚ) (p : List Nat) : Prop :=
  List.Chain' (· ≤ ·) (p.map fun a => v.getD a 0)

instance (v : List ℚ) (p : List Nat) : Decidable (SortedVals v p) :=
  inferInstanceAs (Decidable (List.Chain' _ _))

/-! ### AC post-processing in `plot_data` (lines 193-197)

`20 * np.log10(np.abs(vout_ac))` and `np.angle(vout_ac, deg=True)`, modelled
over the exact complex numbers: `np.abs` is the complex modulus, `np.log10`
is the base-10 logarithm, and `np.angle(z, deg=True)` is
`atan2(Im z, Re z) · 180 / π`, which on `ℂ` (no signed zeros) is
`Complex.arg z · 180 / π`. -/

noncomputable def plot_mag_db (z : ℂ) : ℝ :=
  20 * Real.logb 10 (Complex.abs z)

noncomputable def plot_phase_deg (z : ℂ) : ℝ :=
  z.arg * 180 / Real.pi

/-! ## Theorems -/

/-- **C1**: for delay `td`, rise/fall time `tr`, pulse width `tpulse` and
amplitude `amp` (all positive in the rise/fall/pulse case, as the hard-coded
values are), the five (time, amplitude) pairs produced by `gen_pwl_data`
have strictly increasing times and the amplitude pattern
`[-amp, -amp, +amp, +amp, -amp]`. -/
theorem c1_pwl_monotone_and_pattern (td' tpulse' tr' amp' : ℚ)
    (htd : 0 < td') (htr : 0 < tr') (htp : 0 < tpulse') :
    List.Chain' (· < ·)
      (((pwl_tvec td' tpulse' tr').zip (pwl_yvec amp')).map Prod.fst) ∧
    ((pwl_tvec td' tpulse' tr').zip (pwl_yvec amp')).map Prod.snd
      = [-amp', -amp', amp', amp', -amp'] := by
  refine ⟨?_, rfl⟩
  simp only [pwl_tvec, pwl_yvec, List.zip, List.zipWith, List.map,
    List.chain'_cons, List.chain'_singleton, and_true]
  refine ⟨htd, ?_, ?_, ?_⟩ <;> linarith

/-- **C1 witness**: the hard-coded parameters of `gen_pwl_data` satisfy the
hypotheses, so the concrete five pairs are time-monotone with the stated
amplitude pattern. -/
theorem c1_witness :
    List.Chain' (· < ·) (pwl_pairs.map Prod.fst) ∧
    pwl_pairs.map Prod.snd = [-amp, -amp, amp, amp, -amp] :=
  c1_pwl_monotone_and_pattern td tpulse tr amp
    (by norm_num [td]) (by norm_num [tr]) (by norm_num [tpulse])

/-- **C2**: `gen_schematics` raises a local error iff LVS checking was
requested and the LVS run reports failure; the error message carries the LVS
log path (`'LVS failed.  check log file: %s' % lvs_log`); no other branch of
the function produces an error. -/
theorem c2_lvs_error_iff (cwd : String) (lvs : Bool × String) (d : DsnSpecs)
    (check_lvs : Bool) :
    ((∃ msg, (gen_schematics cwd lvs d check_lvs).2 = .error msg) ↔
      (check_lvs = true ∧ lvs.1 = false)) ∧
    (∀ msg, (gen_schematics cwd lvs d check_lvs).2 = .error msg →
      msg = "LVS failed.  check log file: " ++ lvs.2) := by
  cases check_lvs <;> cases hv : lvs.1 <;>
    simp [gen_schematics, hv]

/-- **C2 witness**: with LVS requested and failing on a concrete spec, the
error is raised and carries the log path. -/
theorem c2_witness :
    (∃ msg, (gen_schematics "/w" (false, "log.txt")
      ⟨"IL", "SL", "SC", "GC", []⟩ true).2 = .error msg) ∧
    (∀ msg, (gen_schematics "/w" (false, "log.txt")
        ⟨"IL", "SL", "SC", "GC", []⟩ true).2 = .error msg →
      msg = "LVS failed.  check log file: " ++ "log.txt") :=
  ⟨(c2_lvs_error_iff "/w" (false, "log.txt") ⟨"IL", "SL", "SC", "GC", []⟩ true).1.mpr
      ⟨rfl, rfl⟩,
    (c2_lvs_error_iff "/w" (false, "log.txt") ⟨"IL", "SL", "SC", "GC", []⟩ true).2⟩

set_option maxRecDepth 2000 in
/-- **C4**: reading back the text written by `gen_pwl_data` (whitespace
separated "time amplitude" lines) yields exactly the five generated pairs —
the generated values need at most two significant digits, so they survive the
4-significant-digit `%.4g` formatting unchanged. -/
theorem c4_roundtrip : parsePwl pwlFileContent = some pwl_pairs := by
  with_unfolding_all rfl

/-- **C6**: `simulate` saves each testbench's results to
`join(data_dir, gen_cell ++ "_" ++ name ++ ".hdf5")` and `load_sim_data`
reads exactly the same file list. -/
theorem c6_sim_load_same_files (data_dir gen_cell : String)
    (tbs : List (String × TbInfo)) :
    simulate_files data_dir gen_cell tbs = load_sim_data_files data_dir gen_cell tbs ∧
    ∀ p ∈ tbs,
      pjoin data_dir ((gen_cell ++ "_" ++ p.1) ++ ".hdf5") ∈
        simulate_files data_dir gen_cell tbs :=
  ⟨rfl, fun _ hp => List.mem_map_of_mem _ hp⟩

/-- **C6 witness**: concrete instantiation with one testbench. -/
theorem c6_witness :
    simulate_files "data" "GC" [("tb_dc", ⟨"TL", "TC", []⟩)] =
      load_sim_data_files "data" "GC" [("tb_dc", ⟨"TL", "TC", []⟩)] ∧
    pjoin "data" (("GC" ++ "_" ++ "tb_dc") ++ ".hdf5") ∈
      simulate_files "data" "GC" [("tb_dc", ⟨"TL", "TC", []⟩)] :=
  ⟨(c6_sim_load_same_files "data" "GC" [("tb_dc", ⟨"TL", "TC", []⟩)]).1,
    (c6_sim_load_same_files "data" "GC" [("tb_dc", ⟨"TL", "TC", []⟩)]).2
      ("tb_dc", ⟨"TL", "TC", []⟩) (List.mem_singleton.mpr rfl)⟩

/-- **C7**: the dB conversion `20·log10 |z|` is `0` for unit-modulus samples,
and the phase in degrees lies in `(-180, 180]` for every complex sample. -/
theorem c7_db_and_phase (z : ℂ) :
    (Complex.abs z = 1 → plot_mag_db z = 0) ∧
    (-180 < plot_phase_deg z ∧ plot_phase_deg z ≤ 180) := by
  have hπ := Real.pi_pos
  obtain ⟨h1, h2⟩ := Set.mem_Ioc.mp (Complex.arg_mem_Ioc z)
  refine ⟨fun h => by simp [plot_mag_db, h], ?_, ?_⟩
  · rw [plot_phase_deg, lt_div_iff₀ hπ]
    nlinarith
  · rw [plot_phase_deg, div_le_iff₀ hπ]
    nlinarith

/-- **C7 witness**: at the unit sample `z = 1`, the dB value is `0` and the
phase is in range. -/
theorem c7_witness :
    plot_mag_db 1 = 0 ∧ -180 < plot_phase_deg 1 ∧ plot_phase_deg 1 ≤ 180 :=
  ⟨(c7_db_and_phase 1).1 (map_one Complex.abs), (c7_db_and_phase 1).2⟩

/-- **C8**: when LVS checking is enabled and LVS fails, `gen_schematics`
raises and its event trace contains no testbench event — no testbench design
module creation or implementation and no stimulus-file write happens. -/
theorem c8_fail_fast (cwd : String) (lvs : Bool × String) (d : DsnSpecs)
    (h : lvs.1 = false) :
    (∃ msg, (gen_schematics cwd lvs d true).2 = .error msg) ∧
    ∀ e ∈ (gen_schematics cwd lvs d true).1, isTbEvent e = false := by
  have htr : (gen_schematics cwd lvs d true).1 =
      [.dutCreated d.sch_lib d.sch_cell, .dutDesigned,
        .dutImplemented d.impl_lib d.gen_cell, .lvsRun d.impl_lib d.gen_cell] := by
    simp [gen_schematics, h]
  refine ⟨⟨"LVS failed.  check log file: " ++ lvs.2, by simp [gen_schematics, h]⟩, ?_⟩
  intro e he
  rw [htr] at he
  simp only [List.mem_cons, List.not_mem_nil, or_false] at he
  rcases he with rfl | rfl | rfl | rfl <;> rfl

/-- **C8 witness**: concrete failing-LVS run emitting only pre-LVS events. -/
theorem c8_witness :
    (∃ msg, (gen_schematics "/w" (false, "log")
      ⟨"IL", "SL", "SC", "GC",
        [("tb_ac", ⟨"TL", "TC", [("tran_fname", "in.txt")]⟩)]⟩ true).2 = .error msg) ∧
    ∀ e ∈ (gen_schematics "/w" (false, "log")
      ⟨"IL", "SL", "SC", "GC",
        [("tb_ac", ⟨"TL", "TC", [("tran_fname", "in.txt")]⟩)]⟩ true).1,
      isTbEvent e = false :=
  c8_fail_fast "/w" (false, "log")
    ⟨"IL", "SL", "SC", "GC", [("tb_ac", ⟨"TL", "TC", [("tran_fname", "in.txt")]⟩)]⟩ rfl

/-- **C3 counterexample**: `np.argsort` (default quicksort kind) is not
stable: on seventeen equal samples the partition step scrambles the indices,
so equal `vin` values do not keep their original relative order. -/
theorem c3_counterexample :
    ¬ StablePerm (List.replicate 17 (0 : ℚ))
      (np_argsort (List.replicate 17 (0 : ℚ))) := by
  with_unfolding_all decide

/-- `List.lookup` finds the updated binding after `setFile`. -/
lemma lookup_setFile (l : List (String × String)) (f c : String) :
    (setFile l f c).lookup f = some c := by
  induction l with
  | nil => simp [setFile, List.lookup]
  | cons p rest ih =>
    obtain ⟨g, d⟩ := p
    by_cases h : g = f
    · subst h
      simp [setFile, List.lookup]
    · have hbe : (f == g) = false := beq_eq_false_iff_ne.mpr (Ne.symm h)
      simp [setFile, h, List.lookup, hbe, ih]

/-- `setVal` updates the looked-up binding of a present key. -/
lemma setVal_lookup_self (l : List (String × String)) (k v a : String)
    (h : l.lookup k = some v) : (setVal l k a).lookup k = some a := by
  induction l with
  | nil => simp [List.lookup] at h
  | cons p rest ih =>
    obtain ⟨g, w⟩ := p
    by_cases hg : g = k
    · subst hg
      simp [setVal, List.lookup]
    · have hbe : (k == g) = false := beq_eq_false_iff_ne.mpr (Ne.symm hg)
      simp only [List.lookup, hbe] at h
      simp [setVal, hg, List.lookup, hbe, ih h]

/-- `setVal` leaves the bindings of all other keys unchanged. -/
lemma setVal_lookup_ne (l : List (String × String)) (k k' a : String)
    (hne : k' ≠ k) : (setVal l k a).lookup k' = l.lookup k' := by
  induction l with
  | nil => simp [setVal]
  | cons p rest ih =>
    obtain ⟨g, w⟩ := p
    by_cases hg : g = k
    · have hbe : (k' == k) = false := beq_eq_false_iff_ne.mpr hne
      simp [setVal, hg, List.lookup, hbe]
    · simp [setVal, hg, List.lookup, ih]

/-- If `setVal` leaves the list unchanged, the written value was already the
bound one. -/
lemma setVal_eq_self (l : List (String × String)) (k v a : String)
    (h : l.lookup k = some v) (he : setVal l k a = l) : a = v := by
  induction l with
  | nil => simp [List.lookup] at h
  | cons p rest ih =>
    obtain ⟨g, w⟩ := p
    by_cases hg : g = k
    · subst hg
      simp only [List.lookup, beq_self_eq_true] at h
      simp only [setVal, eq_self_iff_true, if_true, List.cons.injEq,
        Prod.mk.injEq, true_and] at he
      rw [he.1]
      exact Option.some.inj h
    · have hbe : (k == g) = false := beq_eq_false_iff_ne.mpr (Ne.symm hg)
      simp only [List.lookup, hbe] at h
      simp only [setVal, if_neg hg, List.cons.injEq] at he
      exact ih h he.2

/-- Zipping a list with its image under a map pairs each element with its
image. -/
lemma zip_map_self {α β : Type} (g : α → β) :
    ∀ l : List α, l.zip (l.map g) = l.map fun x => (x, g x) := by
  intro l
  induction l with
  | nil => rfl
  | cons a rest ih => simp [ih]

/-- A list mapped to itself is fixed pointwise. -/
lemma map_eq_self_imp {α : Type} (f : α → α) :
    ∀ l : List α, l.map f = l → ∀ x ∈ l, f x = x := by
  intro l
  induction l with
  | nil => intro _ x hx; cases hx
  | cons a rest ih =>
    intro h x hx
    simp only [List.map_cons, List.cons.injEq] at h
    rcases List.mem_cons.mp hx with hx | hx
    · rw [hx]; exact h.1
    · exact ih h.2 x hx

/-- **C10 counterexample**: a testbench whose `tran_fname` is already an
absolute normalized path (`"/a/b"`): the key is present, yet after
`gen_schematics` the specs mapping is unchanged — it does not differ. -/
theorem c10_counterexample :
    (TbInfo.sch_params ⟨"TL", "TC", [("tran_fname", "/a/b")]⟩).lookup "tran_fname"
      = some "/a/b" ∧
    (gen_schematics "/w" (true, "log")
      ⟨"IL", "SL", "SC", "GC", [("tb_ac", ⟨"TL", "TC", [("tran_fname", "/a/b")]⟩)]⟩
      false).2 =
    .ok ⟨"IL", "SL", "SC", "GC", [("tb_ac", ⟨"TL", "TC", [("tran_fname", "/a/b")]⟩)]⟩ :=
  ⟨rfl, rfl⟩

/-- **C10 amended**: on every non-raising run, each testbench entry with a
`tran_fname` key has its value replaced in place by the absolute form of the
path while every other part of the spec mapping is unchanged; the caller's
specs record therefore differs after the call whenever some original value is
not already its own absolute form (and only the counterexample's
already-absolute case coincides). -/
theorem c10_amended (cwd : String) (lvs : Bool × String) (d d' : DsnSpecs)
    (check_lvs : Bool)
    (hok : (gen_schematics cwd lvs d check_lvs).2 = .ok d') :
    d'.impl_lib = d.impl_lib ∧ d'.sch_lib = d.sch_lib ∧ d'.sch_cell = d.sch_cell ∧
    d'.gen_cell = d.gen_cell ∧
    (∀ q ∈ d.testbenches.zip d'.testbenches,
      q.2.1 = q.1.1 ∧ q.2.2.tb_lib = q.1.2.tb_lib ∧ q.2.2.tb_cell = q.1.2.tb_cell ∧
      (∀ k, k ≠ "tran_fname" →
        q.2.2.sch_params.lookup k = q.1.2.sch_params.lookup k) ∧
      (∀ v, q.1.2.sch_params.lookup "tran_fname" = some v →
        q.2.2.sch_params.lookup "tran_fname" = some (abspath cwd v)) ∧
      (q.1.2.sch_params.lookup "tran_fname" = none → q.2.2 = q.1.2)) ∧
    (∀ p ∈ d.testbenches, ∀ v, p.2.sch_params.lookup "tran_fname" = some v →
      abspath cwd v ≠ v → d' ≠ d) := by
  have hd' : d' = (runTestbenches cwd d).1 := by
    rcases check_lvs <;> rcases hv : lvs.1 <;>
      simp [gen_schematics, hv] at hok <;> exact hok.symm
  have htb : d'.testbenches =
      d.testbenches.map fun p => (p.1, (tbStep cwd d p.1 p.2).1) := by
    rw [hd']
    simp [runTestbenches, List.map_map]
  have hstep : ∀ name (info : TbInfo),
      ((tbStep cwd d name info).1.tb_lib = info.tb_lib ∧
        (tbStep cwd d name info).1.tb_cell = info.tb_cell) ∧
      (∀ k, k ≠ "tran_fname" →
        (tbStep cwd d name info).1.sch_params.lookup k = info.sch_params.lookup k) ∧
      (∀ v, info.sch_params.lookup "tran_fname" = some v →
        (tbStep cwd d name info).1.sch_params.lookup "tran_fname"
          = some (abspath cwd v)) ∧
      (info.sch_params.lookup "tran_fname" = none →
        (tbStep cwd d name info).1 = info) := by
    intro name info
    rcases hl : info.sch_params.lookup "tran_fname" with _ | v
    · have hfst : (tbStep cwd d name info).1 = info := by simp [tbStep, hl]
      rw [hfst]
      exact ⟨⟨rfl, rfl⟩, fun k _ => rfl, fun v' hv' => Option.noConfusion hv',
        fun _ => rfl⟩
    · have hfst : (tbStep cwd d name info).1.sch_params =
          setVal info.sch_params "tran_fname" (abspath cwd v) := by
        simp [tbStep, hl]
      have hlib : (tbStep cwd d name info).1.tb_lib = info.tb_lib := by
        simp [tbStep, hl]
      have hcell : (tbStep cwd d name info).1.tb_cell = info.tb_cell := by
        simp [tbStep, hl]
      refine ⟨⟨hlib, hcell⟩, ?_, ?_, ?_⟩
      · intro k hk
        rw [hfst]
        exact setVal_lookup_ne _ _ _ _ hk
      · intro v' hv'
        cases hv'
        rw [hfst]
        exact setVal_lookup_self _ _ v _ hl
      · intro hn
        exact Option.noConfusion hn
  refine ⟨by rw [hd']; rfl, by rw [hd']; rfl, by rw [hd']; rfl,
    by rw [hd']; rfl, ?_, ?_⟩
  · intro q hq
    have hzip : d.testbenches.zip d'.testbenches =
        d.testbenches.map fun p => (p, (p.1, (tbStep cwd d p.1 p.2).1)) := by
      rw [htb, zip_map_self]
    rw [hzip] at hq
    obtain ⟨p, hp, rfl⟩ := List.mem_map.mp hq
    obtain ⟨hlibcell, hne, hsome, hnone⟩ := hstep p.1 p.2
    exact ⟨rfl, hlibcell.1, hlibcell.2, hne, hsome, hnone⟩
  · intro p hp v hv habs heq
    have : d.testbenches.map (fun p => (p.1, (tbStep cwd d p.1 p.2).1))
        = d.testbenches := by rw [← htb, heq]
    have hfix := map_eq_self_imp _ _ this p hp
    have hsch : (tbStep cwd d p.1 p.2).1.sch_params = p.2.sch_params := by
      have := congrArg Prod.snd hfix
      exact congrArg TbInfo.sch_params this
    rw [tbStep, hv] at hsch
    simp only at hsch
    exact habs (setVal_eq_self _ _ _ _ hv hsch)

/-- **C10 amended, witness**: with working directory `/w` and a relative
`tran_fname` value `"x"`, the mutated specs record differs from the
original. -/
theorem c10_amended_witness :
    (⟨"IL", "SL", "SC", "GC",
      [("tb", ⟨"TL", "TC", [("tran_fname", "/w/x")]⟩)]⟩ : DsnSpecs) ≠
    ⟨"IL", "SL", "SC", "GC", [("tb", ⟨"TL", "TC", [("tran_fname", "x")]⟩)]⟩ :=
  (c10_amended "/w" (true, "log")
      ⟨"IL", "SL", "SC", "GC", [("tb", ⟨"TL", "TC", [("tran_fname", "x")]⟩)]⟩
      ⟨"IL", "SL", "SC", "GC", [("tb", ⟨"TL", "TC", [("tran_fname", "/w/x")]⟩)]⟩
      false (by with_unfolding_all rfl)).2.2.2.2.2
    ("tb", ⟨"TL", "TC", [("tran_fname", "x")]⟩) (List.mem_singleton.mpr rfl)
    "x" rfl (by with_unfolding_all decide)

/-- **C9**: the file content written by `gen_pwl_data` is a constant — the
waveform parameters are hard-coded, so every successful invocation, whatever
the file system and destination path, writes exactly the same five lines. -/
theorem c9_constant_content :
    pwlFileContent
      = "0 -0.01\n1e-10 -0.01\n1.2e-10 0.01\n9.2e-10 0.01\n9.4e-10 -0.01\n" ∧
    ∀ (fs : FS) (fname : String) (fs' : FS),
      gen_pwl_data fs fname = (fs', none) →
      fs'.files.lookup fname = some pwlFileContent := by
  constructor
  · with_unfolding_all rfl
  · intro fs fname fs' h
    rw [gen_pwl_data] at h
    rcases hmk : makedirs fs (dirname fname) with ⟨fs1, e⟩
    rw [hmk] at h
    cases e with
    | some err => simp at h
    | none =>
      simp only at h
      rw [openWrite] at h
      split_ifs at h with h1 h2 h3 h4
      · cases h
      · cases h
      · cases h
      · cases h
      · obtain ⟨rfl, -⟩ := Prod.mk.injEq .. ▸ h
        injection h with h5 h6
        rw [← h5]
        exact lookup_setFile fs1.files fname pwlFileContent

/-- **C9 witness**: a concrete run on a fresh file system writes the constant
content to the destination file. -/
theorem c9_witness :
    ((gen_pwl_data ⟨[], []⟩ "a/b").1).files.lookup "a/b" = some pwlFileContent :=
  c9_constant_content.2 ⟨[], []⟩ "a/b" (gen_pwl_data ⟨[], []⟩ "a/b").1
    (by with_unfolding_all rfl)

/-! ### Stability and sortedness of the small-array path of `np.argsort`

For at most 16 samples `pr - pl ≤ 15`, so `aquicksort` never partitions and
the whole index array goes through the indirect insertion sort. -/

/-- The lexicographic order (value, then original index) that the stable
insertion maintains. -/
def argLex (v : List ℚ) (a b : Nat) : Prop :=
  v.getD a 0 < v.getD b 0 ∨ (v.getD a 0 = v.getD b 0 ∧ a < b)

/-- One step of the driver loop on a small range with an empty stack is just
the insertion sort of that range. -/
lemma introLoop_small (v : List ℚ) (t : List Nat) (pl pr : Nat) (fuel : Nat)
    (depth : Int) (h : ¬ 15 < pr - pl) :
    introLoop v (fuel + 1) t pl pr depth [] = insSortRange v t pl pr := by
  simp only [introLoop]
  rw [if_neg h]

/-- For at most 16 samples `np_argsort` is the plain left-to-right stable
insertion sort of the index range. -/
lemma np_argsort_small (v : List ℚ) (h : v.length ≤ 16) :
    np_argsort v = (List.range v.length).foldl (fun acc i => insIdx v i acc) [] := by
  have h1 : np_argsort v
      = introLoop v (4 * v.length + 15 + 1) (List.range v.length) 0
          (v.length - 1) (2 * nlog2 v.length v.length) [] := rfl
  rw [h1, introLoop_small _ _ _ _ _ _ (by omega)]
  simp only [insSortRange, List.drop_zero, List.take_zero, List.nil_append,
    Nat.zero_add, Nat.sub_zero]
  rw [List.take_of_length_le (by simp; omega),
    List.drop_eq_nil_of_le (by simp; omega), List.append_nil]

/-- Elements of an insertion are the inserted index or old elements. -/
lemma insIdx_mem (v : List ℚ) (i x : Nat) :
    ∀ acc, x ∈ insIdx v i acc → x = i ∨ x ∈ acc := by
  intro acc
  induction acc with
  | nil =>
    intro hx
    simp only [insIdx, List.mem_singleton] at hx
    exact Or.inl hx
  | cons k rest ih =>
    intro hx
    by_cases hc : v.getD i 0 < v.getD k 0
    · simp only [insIdx, if_pos hc, List.mem_cons] at hx
      rcases hx with rfl | hx
      · exact Or.inl rfl
      · exact Or.inr (List.mem_cons.mpr (by exact hx))
    · simp only [insIdx, if_neg hc, List.mem_cons] at hx
      rcases hx with rfl | hx
      · exact Or.inr (List.mem_cons_self x rest)
      · rcases ih hx with rfl | hxr
        · exact Or.inl rfl
        · exact Or.inr (List.mem_cons_of_mem k hxr)

/-- Inserting an index larger than all present ones preserves the
lexicographic pairwise invariant. -/
lemma insIdx_pairwise (v : List ℚ) (i : Nat) :
    ∀ acc, acc.Pairwise (argLex v) → (∀ x ∈ acc, x < i) →
      (insIdx v i acc).Pairwise (argLex v) := by
  intro acc
  induction acc with
  | nil =>
    intro _ _
    simp [insIdx]
  | cons k rest ih =>
    intro hp hb
    rw [List.pairwise_cons] at hp
    obtain ⟨hk, hrest⟩ := hp
    by_cases hc : v.getD i 0 < v.getD k 0
    · simp only [insIdx, if_pos hc]
      rw [List.pairwise_cons]
      refine ⟨?_, List.pairwise_cons.mpr ⟨hk, hrest⟩⟩
      intro b hb'
      rcases List.mem_cons.mp hb' with rfl | hbr
      · exact Or.inl hc
      · rcases hk b hbr with hlt | ⟨heq, _⟩
        · exact Or.inl (lt_trans hc hlt)
        · exact Or.inl (heq ▸ hc)
    · simp only [insIdx, if_neg hc]
      rw [List.pairwise_cons]
      constructor
      · intro b hb'
        rcases insIdx_mem v i b rest hb' with rfl | hbr
        · rcases lt_or_eq_of_le (not_lt.mp hc) with h' | h'
          · exact Or.inl h'
          · exact Or.inr ⟨h', hb k (List.mem_cons_self k rest)⟩
        · exact hk b hbr
      · exact ih hrest fun x hx => hb x (List.mem_cons_of_mem k hx)

/-- Folding stable insertions of increasing indices keeps the invariant and
the index bound. -/
lemma insFold_pairwise (v : List ℚ) :
    ∀ (cnt s : Nat) (acc : List Nat), acc.Pairwise (argLex v) →
      (∀ x ∈ acc, x < s) →
      ((List.range' s cnt).foldl (fun a i => insIdx v i a) acc).Pairwise (argLex v) ∧
      ∀ x ∈ (List.range' s cnt).foldl (fun a i => insIdx v i a) acc, x < s + cnt := by
  intro cnt
  induction cnt with
  | zero =>
    intro s acc hp hb
    exact ⟨hp, fun x hx => by simpa using hb x (by simpa using hx)⟩
  | succ n ih =>
    intro s acc hp hb
    rw [List.range'_succ]
    simp only [List.foldl_cons]
    have hp' := insIdx_pairwise v s acc hp hb
    have hb' : ∀ x ∈ insIdx v s acc, x < s + 1 := by
      intro x hx
      rcases insIdx_mem v s x acc hx with rfl | hxa
      · omega
      · exact Nat.lt_succ_of_lt (hb x hxa)
    obtain ⟨h1, h2⟩ := ih (s + 1) (insIdx v s acc) hp' hb'
    refine ⟨h1, fun x hx => ?_⟩
    have := h2 x hx
    omega

/-- **C3 amended**: `np.argsort(vin)` with the default quicksort kind reduces
to the indirect insertion sort for at most 16 samples, where it is stable and
yields a non-decreasing `vin` sequence; for longer inputs stability fails
(see the seventeen-equal-samples counterexample). -/
theorem c3_amended_small_stable_sorted (v : List ℚ) (h : v.length ≤ 16) :
    StablePerm v (np_argsort v) ∧ SortedVals v (np_argsort v) := by
  rw [np_argsort_small v h]
  have hfold := (insFold_pairwise v v.length 0 [] List.Pairwise.nil
    (by intro x hx; cases hx)).1
  rw [← List.range_eq_range'] at hfold
  constructor
  · refine hfold.imp ?_
    intro a b hab heq
    rcases hab with hlt | ⟨_, hab⟩
    · rw [heq] at hlt
      exact absurd hlt (lt_irrefl _)
    · exact hab
  · refine List.Pairwise.chain' (List.pairwise_map.mpr (hfold.imp ?_))
    intro a b hab
    rcases hab with hlt | ⟨heq, _⟩
    · exact le_of_lt hlt
    · exact le_of_eq heq

/-- **C3 amended, witness**: a concrete four-sample vector with a tie is
argsorted stably into a non-decreasing sequence. -/
theorem c3_amended_witness :
    StablePerm [2, 1, 1, 3] (np_argsort [2, 1, 1, 3]) ∧
    SortedVals [2, 1, 1, 3] (np_argsort [2, 1, 1, 3]) :=
  c3_amended_small_stable_sorted [2, 1, 1, 3] (by simp)

/-! ### Correctness of `gen_pwl_data`'s directory creation (C5) -/

lemma length_mk (l : List Char) : (String.mk l).length = l.length := rfl

lemma mk_eq_empty_iff (l : List Char) : String.mk l = "" ↔ l = [] :=
  ⟨fun h => congrArg String.data h, fun h => by rw [h]⟩

lemma dropTrailSlashes_length_le (cs : List Char) :
    (dropTrailSlashes cs).length ≤ cs.length := by
  simp only [dropTrailSlashes, List.length_reverse]
  calc (cs.reverse.dropWhile (· == '/')).length
      ≤ cs.reverse.length := (List.dropWhile_sublist _).length_le
    _ = cs.length := List.length_reverse cs

lemma psplit_head_length_le (p : String) : ((psplit p).1).length ≤ p.length := by
  rw [psplit]
  simp only [length_mk]
  split_ifs with h
  · exact (List.take_sublist _ _).length_le
  · exact le_trans (dropTrailSlashes_length_le _) ((List.take_sublist _ _).length_le)

lemma psplit_head_length_lt (p : String) (h : (psplit p).2 ≠ "") :
    ((psplit p).1).length < p.length := by
  rw [psplit] at h ⊢
  simp only [length_mk]
  simp only [ne_eq, mk_eq_empty_iff] at h
  have hlt : p.data.length -
      ((p.data.reverse.takeWhile fun c => c != '/').length) < p.data.length := by
    rcases Nat.lt_or_ge (p.data.length -
        ((p.data.reverse.takeWhile fun c => c != '/').length)) p.data.length with
      h' | h'
    · exact h'
    · exact absurd (List.drop_eq_nil_of_le h') h
  split_ifs with hif
  · exact lt_of_le_of_lt (List.length_take_le _ _) hlt
  · exact lt_of_le_of_lt (le_trans (dropTrailSlashes_length_le _)
      (List.length_take_le _ _)) hlt

lemma psplit_tail_nonempty (p : String) (hne : p ≠ "")
    (hend : p.data.getLast? ≠ some '/') : (psplit p).2 ≠ "" := by
  rw [psplit]
  simp only [ne_eq, mk_eq_empty_iff]
  intro hdrop
  rcases hrev : p.data.reverse with _ | ⟨c, rest⟩
  · exact hne (by
      have : p.data = [] := by
        have := congrArg List.reverse hrev
        simpa using this
      cases p
      simp only [mk_eq_empty_iff]
      exact this)
  · have hlast : p.data.getLast? = some c := by
      rw [← List.head?_reverse, hrev]
      rfl
    have hc : c ≠ '/' := fun hcc => hend (hcc ▸ hlast)
    have hcb : (c != '/') = true := by simpa using hc
    have htw : (p.data.reverse.takeWhile fun c => c != '/') =
        c :: (rest.takeWhile fun c => c != '/') := by
      rw [hrev, List.takeWhile_cons, if_pos hcb]
    have hlen1 : 1 ≤ (p.data.reverse.takeWhile fun c => c != '/').length := by
      rw [htw]
      simp
    have hlenrev : (p.data.reverse.takeWhile fun c => c != '/').length
        ≤ p.data.length := by
      calc _ ≤ p.data.reverse.length := (List.takeWhile_sublist _).length_le
        _ = p.data.length := List.length_reverse _
    have hpos : 0 < p.data.length := by
      rcases Nat.eq_zero_or_pos p.data.length with h0 | h0
      · rw [List.length_eq_zero] at h0
        rw [h0] at hrev
        simp at hrev
      · exact h0
    have := List.drop_eq_nil_iff.mp hdrop
    omega

lemma dsplit_head_length_le (p : String) : ((dsplit p).1).length ≤ p.length := by
  rw [dsplit]
  split_ifs with h
  · calc ((psplit (psplit p).1).1).length ≤ ((psplit p).1).length :=
        psplit_head_length_le _
      _ ≤ p.length := psplit_head_length_le _
  · exact psplit_head_length_le _

lemma dsplit_head_length_lt (p : String) (h : (dsplit p).2 ≠ "") :
    ((dsplit p).1).length < p.length := by
  rw [dsplit] at h ⊢
  split_ifs with hif
  · rw [if_pos hif] at h
    calc ((psplit (psplit p).1).1).length < ((psplit p).1).length :=
        psplit_head_length_lt _ h
      _ ≤ p.length := psplit_head_length_le _
  · rw [if_neg hif] at h
    exact psplit_head_length_lt _ h

lemma allslash_getLast (p : String) (hne : p ≠ "")
    (hall : p.data.all (· == '/') = true) : p.data.getLast? = some '/' := by
  rcases hrev : p.data.reverse with _ | ⟨c, rest⟩
  · exact absurd (by
      have := congrArg List.reverse hrev
      simpa using this : p.data = [])
      (fun h0 => hne (by cases p; simpa [mk_eq_empty_iff] using h0))
  · have hlast : p.data.getLast? = some c := by
      rw [← List.head?_reverse, hrev]
      rfl
    have hc : c ∈ p.data := by
      have : c ∈ p.data.reverse := by rw [hrev]; exact List.mem_cons_self c rest
      exact List.mem_reverse.mp this
    have := List.all_eq_true.mp hall c hc
    simp only [beq_iff_eq] at this
    rw [hlast, this]

lemma isdir_files_irrel (fs : FS) (files' : List (String × String)) (p : String) :
    isdir { fs with files := files' } p = isdir fs p := rfl

lemma isdir_mono (fs fs' : FS) (p : String) (hsub : fs.dirs ⊆ fs'.dirs)
    (hd : isdir fs p = true) : isdir fs' p = true := by
  rw [isdir] at hd ⊢
  rw [Bool.and_eq_true] at hd ⊢
  refine ⟨hd.1, ?_⟩
  rcases Bool.or_eq_true _ _ |>.mp hd.2 with h | h
  · exact Bool.or_eq_true _ _ |>.mpr (Or.inl h)
  · refine Bool.or_eq_true _ _ |>.mpr (Or.inr ?_)
    rw [List.contains_iff_exists_mem_beq] at h ⊢
    obtain ⟨x, hx, hbx⟩ := h
    exact ⟨x, hsub hx, hbx⟩

lemma isfile_congr (fs fs' : FS) (p : String) (hf : fs'.files = fs.files) :
    isfile fs' p = isfile fs p := by
  rw [isfile, isfile, hf]

lemma pexists_mono (fs fs' : FS) (p : String) (hsub : fs.dirs ⊆ fs'.dirs)
    (hf : fs'.files = fs.files) (hp : pexists fs p = true) :
    pexists fs' p = true := by
  rw [pexists, Bool.or_eq_true] at hp ⊢
  rcases hp with h | h
  · exact Or.inl (isdir_mono fs fs' p hsub h)
  · exact Or.inr (by rw [isfile_congr fs fs' p hf]; exact h)

/-- A file whose name is shorter than every stored file path does not exist
as a file. -/
lemma isfile_of_short (fs : FS) (name : String)
    (hfb : ∀ q ∈ fs.files, name.length < q.1.length) :
    isfile fs name = false := by
  rw [isfile]
  rcases hs : (fs.files.lookup name).isSome with _ | _
  · rfl
  · exfalso
    obtain ⟨q, hq, hbeq⟩ := List.lookup_isSome_iff.mp hs
    have heq : name = q.1 := by simpa using hbeq
    have hlt := hfb q hq
    rw [← heq] at hlt
    omega

/-- `mkdir` with the `exist_ok` suppression succeeds whenever the name is
non-empty and does not collide with an existing file, leaving files intact
and making the name a directory. -/
lemma mkdirSwallow_ok (fs : FS) (name : String) (hname : name ≠ "")
    (hnf : isfile fs name = false) :
    ∃ fs' : FS, mkdirSwallow fs name = (fs', none) ∧ fs'.files = fs.files ∧
      isdir fs' name = true ∧ fs.dirs ⊆ fs'.dirs ∧
      ∀ x ∈ fs'.dirs, x ∈ fs.dirs ∨ x = name := by
  by_cases hd : isdir fs name = true
  · have hmk : mkdir fs name = (fs, some .fileExists) := by
      rw [mkdir, if_neg hname, if_pos (by simp [hd])]
    refine ⟨fs, ?_, rfl, hd, fun x hx => hx, fun x hx => Or.inl hx⟩
    rw [mkdirSwallow, hmk]
    simp [hd]
  · have hmk : mkdir fs name = ({ fs with dirs := name :: fs.dirs }, none) := by
      rw [mkdir, if_neg hname, if_neg (by simp [hd, hnf])]
    refine ⟨{ fs with dirs := name :: fs.dirs }, ?_, rfl, ?_, ?_, ?_⟩
    · rw [mkdirSwallow, hmk]
    · rw [isdir, Bool.and_eq_true]
      refine ⟨by simpa using hname, ?_⟩
      refine Bool.or_eq_true _ _ |>.mpr (Or.inr ?_)
      simp [List.contains_cons]
    · exact List.subset_cons_self name fs.dirs
    · intro x hx
      rcases List.mem_cons.mp hx with rfl | hx
      · exact Or.inr rfl
      · exact Or.inl hx

/-- Main correctness of `os.makedirs(..., exist_ok=True)`: given enough fuel,
a non-empty name with no `"."` split tail, and a file system in which every
stored file path is longer than the name, `makedirs` succeeds, leaves the
files unchanged, makes the name a directory, adds only directories no longer
than the name, and leaves the split head existing (or degenerate). -/
lemma makedirsA_ok : ∀ (fuel : Nat) (name : String) (fs : FS),
    name.length < fuel → name ≠ "" →
    noDotTails fuel name = true →
    (∀ q ∈ fs.files, name.length < q.1.length) →
    ∃ fs' : FS, makedirsA fs fuel name = (fs', none) ∧
      fs'.files = fs.files ∧
      isdir fs' name = true ∧
      (∀ x ∈ fs'.dirs, x ∈ fs.dirs ∨ x.length ≤ name.length) ∧
      ((dsplit name).1 = "" ∨ (dsplit name).2 = "" ∨
        pexists fs' (dsplit name).1 = true) := by
  intro fuel
  induction fuel with
  | zero =>
    intro name fs h
    omega
  | succ fuel ih =>
    intro name fs hlen hname hnod hfb
    have hnf : isfile fs name = false := isfile_of_short fs name hfb
    rw [makedirsA]
    by_cases hg : (dsplit name).1 ≠ "" ∧ (dsplit name).2 ≠ "" ∧
        ¬ pexists fs (dsplit name).1
    · rw [if_pos hg]
      have hlt : ((dsplit name).1).length < name.length :=
        dsplit_head_length_lt name hg.2.1
      have hnod2 := hnod
      rw [noDotTails, Bool.and_eq_true] at hnod2
      have hnod' : noDotTails fuel (dsplit name).1 = true := by
        have := hnod2.2
        rw [if_pos ⟨hg.1, hg.2.1⟩] at this
        exact this
      have hdot : ¬ (dsplit name).2 = "." := by simpa using hnod2.1
      obtain ⟨fs1, heq1, hfiles1, hdir1, hdirs1, -⟩ := ih (dsplit name).1 fs
        (by omega) hg.1 hnod' (fun q hq => lt_trans hlt (hfb q hq))
      rw [heq1]
      rw [if_pos (Or.inl rfl)]
      rw [if_neg hdot]
      have hnf1 : isfile fs1 name = false := by
        rw [isfile_congr fs fs1 name hfiles1]
        exact hnf
      obtain ⟨fs2, heq2, hfiles2, hdir2, hsub2, hmem2⟩ :=
        mkdirSwallow_ok fs1 name hname hnf1
      refine ⟨fs2, by rw [heq2], by rw [hfiles2, hfiles1], hdir2, ?_, ?_⟩
      · intro x hx
        rcases hmem2 x hx with hx1 | rfl
        · rcases hdirs1 x hx1 with h | h
          · exact Or.inl h
          · exact Or.inr (le_trans h (le_of_lt hlt))
        · exact Or.inr (le_refl _)
      · right; right
        rw [pexists, Bool.or_eq_true]
        exact Or.inl (isdir_mono fs1 fs2 _ hsub2 hdir1)
    · rw [if_neg hg]
      obtain ⟨fs2, heq2, hfiles2, hdir2, hsub2, hmem2⟩ :=
        mkdirSwallow_ok fs name hname hnf
      refine ⟨fs2, by rw [heq2], hfiles2, hdir2, ?_, ?_⟩
      · intro x hx
        rcases hmem2 x hx with hx1 | rfl
        · exact Or.inl hx1
        · exact Or.inr (le_refl _)
      · rcases Classical.em ((dsplit name).1 = "") with h1 | h1
        · exact Or.inl h1
        rcases Classical.em ((dsplit name).2 = "") with h2 | h2
        · exact Or.inr (Or.inl h2)
        right; right
        have hpe : pexists fs (dsplit name).1 = true := by
          by_contra hpe
          exact hg ⟨h1, h2, hpe⟩
        exact pexists_mono fs fs2 _ hsub2 hfiles2 hpe

/-- Re-running `makedirs` on a state where the directory already exists and
the split head exists (or is degenerate) is a no-op. -/
lemma makedirsA_idem (fs : FS) (fuel : Nat) (name : String) (hname : name ≠ "")
    (hd : isdir fs name = true)
    (h5 : (dsplit name).1 = "" ∨ (dsplit name).2 = "" ∨
      pexists fs (dsplit name).1 = true) :
    makedirsA fs (fuel + 1) name = (fs, none) := by
  rw [makedirsA]
  rw [if_neg (by
    rintro ⟨hg1, hg2, hg3⟩
    rcases h5 with h | h | h
    · exact hg1 h
    · exact hg2 h
    · exact hg3 h)]
  have hmk : mkdir fs name = (fs, some .fileExists) := by
    rw [mkdir, if_neg hname, if_pos (by simp [hd])]
  rw [mkdirSwallow, hmk]
  simp [hd]

lemma setFile_lookup_ne (l : List (String × String)) (f c p : String)
    (h : p ≠ f) : (setFile l f c).lookup p = l.lookup p := by
  have hbe : (p == f) = false := beq_eq_false_iff_ne.mpr h
  induction l with
  | nil => simp [setFile, List.lookup, hbe]
  | cons q rest ih =>
    obtain ⟨g, w⟩ := q
    by_cases hg : g = f
    · subst hg
      simp [setFile, List.lookup, hbe]
    · simp [setFile, hg, List.lookup, ih]

lemma setFile_setFile (l : List (String × String)) (f c : String) :
    setFile (setFile l f c) f c = setFile l f c := by
  induction l with
  | nil => simp [setFile]
  | cons q rest ih =>
    obtain ⟨g, w⟩ := q
    by_cases hg : g = f
    · subst hg
      simp [setFile]
    · simp [setFile, hg, ih]

/-- **C5 counterexample**: a destination path with no directory part —
`os.path.dirname("out.txt")` is empty, and `os.makedirs('', exist_ok=True)`
raises `FileNotFoundError`, so `gen_pwl_data` raises instead of creating a
directory. -/
theorem c5_counterexample :
    (gen_pwl_data ⟨[], []⟩ "out.txt").2 = some OSErr.fileNotFound := by
  with_unfolding_all rfl

/-- **C5 amended**: for every destination path with a non-empty directory
part and no trailing slash, whose directory splits contain no `"."`
component, starting from a file system where the path is not an existing
directory and every existing file path is at least as long as the
destination (e.g. a fresh file system), `gen_pwl_data` creates the missing
directories without raising an error, writes the file, and is idempotent:
a second run returns the identical state, overwriting the file with
identical content. -/
theorem c5_amended_mkdirs_and_idempotent (fs : FS) (fname : String)
    (hdir : dirname fname ≠ "")
    (hend : fname.data.getLast? ≠ some '/')
    (hnod : noDotTails ((dirname fname).length + 1) (dirname fname) = true)
    (hfiles : ∀ q ∈ fs.files, fname.length ≤ q.1.length)
    (hfd : fname ∉ fs.dirs) :
    ∃ fs₁ : FS, gen_pwl_data fs fname = (fs₁, none) ∧
      isdir fs₁ (dirname fname) = true ∧
      fs₁.files.lookup fname = some pwlFileContent ∧
      gen_pwl_data fs₁ fname = (fs₁, none) := by
  have hne : fname ≠ "" := by
    intro h
    exact hdir (by rw [h]; rfl)
  have htail : (psplit fname).2 ≠ "" := psplit_tail_nonempty fname hne hend
  have hlt : (dirname fname).length < fname.length :=
    psplit_head_length_lt fname htail
  obtain ⟨fs1, hmk, hfiles1, hdir1, hdirs1, h5⟩ :=
    makedirsA_ok ((dirname fname).length + 1) (dirname fname) fs
      (by omega) hdir hnod (fun q hq => lt_of_lt_of_le hlt (hfiles q hq))
  have hnotall : fname.data.all (· == '/') = false := by
    by_contra hall
    rw [Bool.not_eq_false] at hall
    exact hend (allslash_getLast fname hne hall)
  have hmem1 : fname ∉ fs1.dirs := by
    intro hxin
    rcases hdirs1 fname hxin with h | h
    · exact hfd h
    · omega
  have hfname_not_dir1 : isdir fs1 fname = false := by
    apply Bool.eq_false_iff.mpr
    intro htrue
    rw [isdir, Bool.and_eq_true, Bool.or_eq_true] at htrue
    rcases htrue.2 with h | h
    · rw [hnotall] at h
      cases h
    · rw [List.contains_iff_exists_mem_beq] at h
      obtain ⟨x, hx, hbx⟩ := h
      have : fname = x := by simpa using hbx
      subst this
      exact hmem1 hx
  have hopen : openWrite fs1 fname pwlFileContent =
      ({ fs1 with files := setFile fs1.files fname pwlFileContent }, none) := by
    rw [openWrite, if_neg hne, if_neg hend, if_neg (by simp [hfname_not_dir1]),
      if_neg (by rintro ⟨-, hko⟩; exact hko hdir1)]
  refine ⟨{ fs1 with files := setFile fs1.files fname pwlFileContent },
    ?_, ?_, ?_, ?_⟩
  · simp only [gen_pwl_data, makedirs]
    rw [hmk]
    exact hopen
  · rw [isdir_files_irrel]
    exact hdir1
  · exact lookup_setFile fs1.files fname pwlFileContent
  · have hd₁ : isdir { fs1 with files := setFile fs1.files fname pwlFileContent }
        (dirname fname) = true := by
      rw [isdir_files_irrel]
      exact hdir1
    have h5₁ : (dsplit (dirname fname)).1 = "" ∨
        (dsplit (dirname fname)).2 = "" ∨
        pexists { fs1 with files := setFile fs1.files fname pwlFileContent }
          (dsplit (dirname fname)).1 = true := by
      rcases h5 with h | h | h
      · exact Or.inl h
      · exact Or.inr (Or.inl h)
      · right; right
        rw [pexists, Bool.or_eq_true] at h ⊢
        rcases h with h | h
        · exact Or.inl (by rw [isdir_files_irrel]; exact h)
        · exfalso
          rw [isfile] at h
          obtain ⟨q, hq, hbq⟩ := List.lookup_isSome_iff.mp h
          have heqq : (dsplit (dirname fname)).1 = q.1 := by simpa using hbq
          rw [hfiles1] at hq
          have hbound := hfiles q hq
          have hle : ((dsplit (dirname fname)).1).length ≤ (dirname fname).length :=
            dsplit_head_length_le _
          have hleq : ((dsplit (dirname fname)).1).length = q.1.length :=
            congrArg String.length heqq
          omega
    have hmk2 : makedirsA { fs1 with files := setFile fs1.files fname pwlFileContent }
        ((dirname fname).length + 1) (dirname fname) =
        ({ fs1 with files := setFile fs1.files fname pwlFileContent }, none) :=
      makedirsA_idem _ (dirname fname).length (dirname fname) hdir hd₁ h5₁
    have hnd₁ : isdir { fs1 with files := setFile fs1.files fname pwlFileContent }
        fname = false := by
      rw [isdir_files_irrel]
      exact hfname_not_dir1
    have hopen2 : openWrite
        { fs1 with files := setFile fs1.files fname pwlFileContent }
        fname pwlFileContent =
        ({ fs1 with files := setFile fs1.files fname pwlFileContent }, none) := by
      rw [openWrite, if_neg hne, if_neg hend, if_neg (by simp [hnd₁]),
        if_neg (by rintro ⟨-, hko⟩; exact hko hd₁)]
      rw [show setFile (setFile fs1.files fname pwlFileContent) fname pwlFileContent
          = setFile fs1.files fname pwlFileContent from setFile_setFile _ _ _]
    simp only [gen_pwl_data, makedirs]
    rw [hmk2]
    exact hopen2

/-- **C5 amended, witness**: on a fresh file system and the path `"a/b"`, the
run succeeds creating directory `"a"`, and a second run is the identity on
the resulting state. -/
theorem c5_witness :
    gen_pwl_data (gen_pwl_data ⟨[], []⟩ "a/b").1 "a/b"
      = ((gen_pwl_data ⟨[], []⟩ "a/b").1, none) ∧
    isdir (gen_pwl_data ⟨[], []⟩ "a/b").1 "a" = true := by
  obtain ⟨fs₁, h1, h2, h3, h4⟩ :=
    c5_amended_mkdirs_and_idempotent ⟨[], []⟩ "a/b"
      (by with_unfolding_all decide) (by with_unfolding_all decide)
      (by with_unfolding_all decide) (by intro q hq; cases hq)
      (by intro h; cases h)
  have hf : (gen_pwl_data ⟨[], []⟩ "a/b").1 = fs₁ := by rw [h1]
  rw [hf]
  refine ⟨h4, ?_⟩
  have hdn : dirname "a/b" = "a" := by with_unfolding_all rfl
  rw [← hdn]
  exact h2

end AmpDemo
